import Mathlib

/-!
Verification of the constraint-builder core of the `circuit-tools` repository
(`src/constraint_builder.rs`, `src/util.rs`) against its specification.

The symbolic-expression type is the external backend primitive
(`halo2_proofs::plonk::Expression<F>`): a tagged tree over constants, column
queries, challenges, sums, products, negations and scalings, with the usual
polynomial degree.  Query leaves are represented by their slot index; field
constants are represented by integers (cast into the field at evaluation
time).  Structural identity (`Expression::identifier()` in the backend) is
modelled by decidable equality of the tree itself.
-/

set_option maxHeartbeats 1000000

namespace CircuitTools

/-- Symbolic expression tree, following the backend `Expression` type used by
`constraint_builder.rs` (sums, products, negation, scaling, constants, fixed
and advice queries, challenges).  `1.expr()` is `Constant 1`. -/
inductive Expression where
  | Constant : Int → Expression
  | Fixed : Nat → Expression
  | Advice : Nat → Expression
  | Challenge : Nat → Expression
  | Negated : Expression → Expression
  | Sum : Expression → Expression → Expression
  | Product : Expression → Expression → Expression
  | Scaled : Expression → Int → Expression
deriving DecidableEq, Repr

/-- Polynomial degree of an expression, as computed by the backend:
queries have degree 1, constants and challenges degree 0, a sum takes the
max and a product the sum of its operands' degrees. -/
def Expression.degree : Expression → Nat
  | .Constant _ => 0
  | .Fixed _ => 1
  | .Advice _ => 1
  | .Challenge _ => 0
  | .Negated e => e.degree
  | .Sum a b => max a.degree b.degree
  | .Product a b => a.degree + b.degree
  | .Scaled e _ => e.degree

/-- An assignment of field values to the query leaves and challenges of an
expression: `adv` gives the value of each advice cell, `fx` of each fixed
slot, `chal` of each challenge. -/
structure Assign (F : Type) where
  adv : Nat → F
  fx : Nat → F
  chal : Nat → F

/-- Evaluation of an expression under an assignment of its leaves. -/
def Expression.eval {F : Type} [CommRing F] (σ : Assign F) : Expression → F
  | .Constant c => (c : F)
  | .Fixed i => σ.fx i
  | .Advice i => σ.adv i
  | .Challenge i => σ.chal i
  | .Negated e => - e.eval σ
  | .Sum a b => a.eval σ + b.eval σ
  | .Product a b => a.eval σ * b.eval σ
  | .Scaled e v => e.eval σ * (v : F)

/-- Subtraction on expressions, as the backend implements `a - b`:
`Sum(a, Negated(b))`. -/
def sub_expr (a b : Expression) : Expression := .Sum a (.Negated b)

/-- Conjunction of boolean expressions, following the gadget helper
`and::expr`: a fold of products starting from the constant 1. -/
def and_expr (es : List Expression) : Expression :=
  es.foldl (fun acc c => .Product acc c) (.Constant 1)

/-- Sum of expressions, following the gadget helper `sum::expr`: a fold of
sums starting from the constant 0. -/
def sum_expr (es : List Expression) : Expression :=
  es.foldl (fun acc c => .Sum acc c) (.Constant 0)

/-- The free function `get_condition_expr(conditions)` of
`constraint_builder.rs`: the constant 1 on an empty stack, otherwise the
conjunction of the stack. -/
def get_condition_expr_of (conditions : List Expression) : Expression :=
  if conditions.isEmpty then .Constant 1 else and_expr conditions

/-- Random linear combination `rlc::expr` of `util.rs`: the empty tuple
compresses to 0; otherwise the values are reversed and folded as
`acc * r + value`, yielding `v0 + v1 r + v2 r^2 + ...`. -/
def rlc_expr (es : List Expression) (r : Expression) : Expression :=
  match es.reverse with
  | [] => .Constant 0
  | init :: rest => rest.foldl (fun acc v => .Sum (.Product acc r) v) init

/-- Reversed-order RLC (`RLCable::rlc_rev` of `constraint_builder.rs`):
the RLC of the reversed tuple. -/
def rlc_rev (es : List Expression) (r : Expression) : Expression :=
  rlc_expr es.reverse r

/-- A pending table-population record (`TableData` of
`constraint_builder.rs`). -/
structure TableData where
  description : String
  regionalCondition : Expression
  localCondition : Expression
  values : List Expression
  regionId : Nat
deriving DecidableEq, Repr

/-- `TableData::condition`: the regional condition times the local
condition. -/
def TableData.condition (t : TableData) : Expression :=
  .Product t.regionalCondition t.localCondition

/-- A pending lookup-check record (`LookupData` of
`constraint_builder.rs`). -/
structure LookupData where
  description : String
  regionalCondition : Expression
  localCondition : Expression
  values : List Expression
  table : List Expression
  regionId : Nat
deriving DecidableEq, Repr

/-- `LookupData::condition`: the regional condition times the local
condition. -/
def LookupData.condition (t : LookupData) : Expression :=
  .Product t.regionalCondition t.localCondition

/-- The merge operation of `TableMerger` that performs no exclusivity check
(named after the `TableMerger` method of `constraint_builder.rs`, lines
84-101; renamed here because its source name is not usable as a Lean
identifier in this development): on empty data, selector 0 and no columns;
otherwise the selector is the sum of all conditions and each merged column
`j` (up to the widest contributing tuple) is the sum of
`condition_i * values_i[j]`, missing entries defaulting to 0. -/
def merge_unchecked (data : List TableData) : Expression × List Expression :=
  if data.isEmpty then (.Constant 0, [])
  else
    let selector := sum_expr (data.map TableData.condition)
    let maxLength := (data.map (fun t => t.values.length)).foldl max 0
    (selector,
      (List.range maxLength).map (fun idx =>
        sum_expr (data.map (fun t =>
          .Product t.condition (t.values.getD idx (.Constant 0))))))

/-- Modelled from the spec: the `StoredExpression` cache record (defined in
`cached_region.rs`, which is not under `src/`; its fields are visible from
its uses in `constraint_builder.rs`): the cell holding the expression's
value, the cell type it was stored under, and the expression itself.  The
backend's `expr_id` (a structural-identity string) is represented by the
expression tree itself, compared with decidable equality. -/
structure StoredExpression (C : Type) where
  name : String
  cell : Nat
  cellType : C
  expr : Expression
deriving DecidableEq, Repr

/-- The constraint builder state (`ConstraintBuilder<F, C>` of
`constraint_builder.rs`).  The cell manager (`cell_manager.rs`, not under
`src/`) is modelled from the spec as an allocator of fresh cells: an
optional counter of the next free cell index; `reset` on region entry frees
prior cells and the spec says their identity is then re-derived, which we
abstract by keeping the counter monotone (distinct allocations stay
distinct — no claim depends on cross-region reuse of physical slots).
The `equalities`, `tables`, `disable_description` and `lookup_challenge`
fields are omitted: no operation verified here touches them. -/
structure CB (C : Type) where
  constraints : List (String × Expression)
  maxGlobalDegree : Nat
  maxDegree : Nat
  conditions : List Expression
  lookups : List LookupData
  storedExpressions : Nat → List (StoredExpression C)
  cellManager : Option Nat
  regionId : Nat
  stateContext : List Expression
  regionConstraintsStart : Nat

variable {C : Type}

/-- `ConstraintBuilder::new`. -/
def CB.new (C : Type) (maxDegree : Nat) (cellManager : Option Nat) : CB C where
  constraints := []
  maxGlobalDegree := maxDegree
  maxDegree := maxDegree
  conditions := []
  lookups := []
  storedExpressions := fun _ => []
  cellManager := cellManager
  regionId := 0
  stateContext := []
  regionConstraintsStart := 0

/-- `ConstraintBuilder::get_condition`: `None` on an empty condition stack,
otherwise the conjunction of the stack. -/
def CB.get_condition (s : CB C) : Option Expression :=
  if s.conditions.isEmpty then none else some (and_expr s.conditions)

/-- `ConstraintBuilder::get_condition_expr`: the condition, defaulting to
the constant 1. -/
def CB.get_condition_expr (s : CB C) : Expression :=
  s.get_condition.getD (.Constant 1)

/-- `ConstraintBuilder::push_condition`. -/
def CB.push_condition (s : CB C) (condition : Expression) : CB C :=
  { s with conditions := s.conditions ++ [condition] }

/-- `ConstraintBuilder::pop_condition`: `Vec::pop` discards the last
condition and is a no-op on an empty stack. -/
def CB.pop_condition (s : CB C) : CB C :=
  { s with conditions := s.conditions.dropLast }

/-- Modelled from the spec: `CellManager::query_cells` for one cell
(`cell_manager.rs` is not under `src/`).  Allocation panics when no cell
manager is attached; otherwise it hands out a fresh cell of the requested
classification.  The classification decides the physical column family,
which no claim depends on, so the cell identity is abstracted to the
counter value. -/
def CB.query_one (s : CB C) (_ct : C) : Option (Nat × CB C) :=
  match s.cellManager with
  | none => none
  | some n => some (n, { s with cellManager := some (n + 1) })

/-- `ConstraintBuilder::find_stored_expression`: the first cache record of
the current region with the same cell type and the same expression
identity. -/
def CB.find_stored_expression [DecidableEq C] (s : CB C) (e : Expression) (ct : C) :
    Option (StoredExpression C) :=
  (s.storedExpressions s.regionId).find? (fun st => decide (st.cellType = ct ∧ st.expr = e))

/-- `ConstraintBuilder::store_expression`: on a cache hit, return the cached
cell's expression with no side effect; on a miss, take the caller-supplied
target cell or allocate one, append the equality constraint
`cell - expression` to the constraint list, record the cache entry under the
current region, and return the cell's expression.  `none` models the panic
of allocating without a cell manager. -/
def CB.store_expression [DecidableEq C] (s : CB C) (name : String) (e : Expression)
    (ct : C) (targetCell : Option Nat) : Option (Expression × CB C) :=
  match s.find_stored_expression e ct with
  | some st => some (.Advice st.cell, s)
  | none =>
    match (match targetCell with
           | some tc => some (tc, s)
           | none => s.query_one ct) with
    | none => none
    | some (cell, s1) =>
      let cname := name ++ " (stored expression)"
      some (.Advice cell,
        { s1 with
          constraints := s1.constraints ++ [(cname, sub_expr (.Advice cell) e)]
          storedExpressions := fun rid =>
            if rid = s1.regionId then
              s1.storedExpressions rid ++ [⟨cname, cell, ct, e⟩]
            else s1.storedExpressions rid })

/-- `ConstraintBuilder::validate_degree` as a boolean: the degree check
passes unless the global budget is positive, a region is active, and the
degree exceeds the in-force budget. -/
def CB.validate_degree (s : CB C) (degree : Nat) : Bool :=
  !(decide (0 < s.maxGlobalDegree ∧ s.regionId ≠ 0 ∧ s.maxDegree < degree))

/-- Result of a builder computation that can panic (a fatal programmer
error) or, in this embedding, run out of fuel (modelling divergence of the
source's unbounded recursion). -/
inductive PRes (α : Type) where
  | ok : α → PRes α
  | panic : PRes α
  | fuelOut : PRes α
deriving Repr

/-- Lift an `Option` (where `none` is a panic) into `PRes`. -/
def liftPanic {α : Type} : Option α → PRes α
  | some a => .ok a
  | none => .panic

/-- A request to the degree-bounded splitter: either split an expression, or
run the product-reduction loop on a pair of operands. -/
inductive SplitReq where
  | expr : Expression → SplitReq
  | prod : Expression → Expression → SplitReq

/-- The evaluation target of a split request: the expression's value, or the
product of the two operands' values. -/
def SplitReq.evalTarget {F : Type} [CommRing F] (σ : Assign F) : SplitReq → F
  | .expr e => e.eval σ
  | .prod a b => a.eval σ * b.eval σ

/-- Fuelled engine for `ConstraintBuilder::split_expression`.  The `.expr`
case is the body of `split_expression`: if the expression's degree exceeds
the in-force budget while a region is active, negations and scalings
recurse into their operand, sums recurse into both addends, and a product
enters the reduction loop; otherwise (and for leaves) the expression is
returned unchanged.  The `.prod` case is the `while` loop on a product's
operands: while their degrees sum above the budget, the operand of larger
degree (ties to the first) is either split recursively (if it alone exceeds
the budget) or replaced by a stored-expression cell of the classification
`storage_for_expr` assigns to it.  `fuelOut` models divergence of the
source, whose loop is not fuelled. -/
def split_go [DecidableEq C] (sfe : Expression → C) (name : String) :
    Nat → SplitReq → CB C → PRes (Expression × CB C)
  | 0, _, _ => .fuelOut
  | fuel + 1, .expr e, s =>
    if s.maxDegree < e.degree ∧ s.regionId ≠ 0 then
      match e with
      | .Negated p =>
        match split_go sfe name fuel (.expr p) s with
        | .ok (r, s') => .ok (.Negated r, s')
        | .panic => .panic
        | .fuelOut => .fuelOut
      | .Scaled p v =>
        match split_go sfe name fuel (.expr p) s with
        | .ok (r, s') => .ok (.Scaled r v, s')
        | .panic => .panic
        | .fuelOut => .fuelOut
      | .Sum a b =>
        match split_go sfe name fuel (.expr a) s with
        | .ok (ra, s1) =>
          match split_go sfe name fuel (.expr b) s1 with
          | .ok (rb, s2) => .ok (.Sum ra rb, s2)
          | .panic => .panic
          | .fuelOut => .fuelOut
        | .panic => .panic
        | .fuelOut => .fuelOut
      | .Product a b => split_go sfe name fuel (.prod a b) s
      | other => .ok (other, s)
    else .ok (e, s)
  | fuel + 1, .prod a b, s =>
    if s.maxDegree < a.degree + b.degree then
      if b.degree ≤ a.degree then
        match (if s.maxDegree < a.degree then split_go sfe name fuel (.expr a) s
               else liftPanic (s.store_expression name a (sfe a) none)) with
        | .ok (a', s') => split_go sfe name fuel (.prod a' b) s'
        | .panic => .panic
        | .fuelOut => .fuelOut
      else
        match (if s.maxDegree < b.degree then split_go sfe name fuel (.expr b) s
               else liftPanic (s.store_expression name b (sfe b) none)) with
        | .ok (b', s') => split_go sfe name fuel (.prod a b') s'
        | .panic => .panic
        | .fuelOut => .fuelOut
    else .ok (.Product a b, s)

/-- `ConstraintBuilder::split_expression`, with fuel.  `sfe` is the
`CellType::storage_for_expr` classification policy. -/
def split_expression [DecidableEq C] (sfe : Expression → C) (fuel : Nat)
    (name : String) (e : Expression) (s : CB C) : PRes (Expression × CB C) :=
  split_go sfe name fuel (.expr e) s

/-- `ConstraintBuilder::add_constraint`: a no-op when the global budget is
zero; otherwise the expression is multiplied by the current effective
condition (if any), passed through degree-bounded splitting, checked
against the in-force degree budget (fatal on failure), and appended to the
constraint list. -/
def CB.add_constraint [DecidableEq C] (s : CB C) (sfe : Expression → C) (fuel : Nat)
    (name : String) (constraint : Expression) : PRes (CB C) :=
  if s.maxGlobalDegree = 0 then .ok s
  else
    match split_expression sfe fuel name
        (match s.get_condition with
         | some condition => Expression.Product condition constraint
         | none => constraint) s with
    | .ok (c', s') =>
      if s'.validate_degree c'.degree then
        .ok { s' with constraints := s'.constraints ++ [(name, c')] }
      else .panic
    | .panic => .panic
    | .fuelOut => .fuelOut

/-- `ConstraintBuilder::push_region`: asserts the region id is nonzero
(fatal otherwise); snapshots the live condition stack as the region's base
condition; sets the region budget to the global budget minus the degree of
the outgoing effective condition (an unchecked `usize` subtraction — `none`
models the debug-build underflow abort when the degree exceeds the global
budget); clears the live conditions; records the constraint-list length as
the region's start marker; and resets the cell manager (fatal when none is
attached) to the requested height. -/
def CB.push_region (s : CB C) (regionId height : Nat) : Option (CB C) :=
  if regionId = 0 then none
  else if s.get_condition_expr.degree ≤ s.maxGlobalDegree then
    match s.cellManager with
    | none => none
    | some n =>
      some { s with
        regionId := regionId
        stateContext := s.conditions
        maxDegree := s.maxGlobalDegree - s.get_condition_expr.degree
        conditions := []
        regionConstraintsStart := s.constraints.length
        cellManager := some n }
  else none

/-- The retroactive gating loop of `pop_region`: every constraint at index
at least `start` is multiplied by the region's base condition. -/
def gate_constraints (condition : Expression) (start : Nat) :
    Nat → List (String × Expression) → List (String × Expression)
  | _, [] => []
  | i, p :: rest =>
    (if start ≤ i then (p.1, .Product condition p.2) else p)
      :: gate_constraints condition start (i + 1) rest

/-- `ConstraintBuilder::pop_region`: multiplies every constraint added since
the region's start marker by the region's base condition, restores the live
condition stack to the base, recomputes the degree budget from it (the same
unchecked subtraction as `push_region` — `none` models its underflow),
clears the region id back to 0 and clears the base snapshot. -/
def CB.pop_region (s : CB C) : Option (CB C) :=
  let condition := get_condition_expr_of s.stateContext
  if (get_condition_expr_of s.stateContext).degree ≤ s.maxGlobalDegree then
    some { s with
      constraints := gate_constraints condition s.regionConstraintsStart 0 s.constraints
      conditions := s.stateContext
      maxDegree := s.maxGlobalDegree - (get_condition_expr_of s.stateContext).degree
      regionId := 0
      stateContext := [] }
  else none

/-- `ConstraintBuilder::add_lookup`: records the value tuple, the target
table tuple as captured now, the current effective condition as the local
condition and the region base condition as the regional condition, tagged
with the current region id. -/
def CB.add_lookup (s : CB C) (description : String)
    (values table : List Expression) : CB C :=
  { s with lookups := s.lookups ++ [{
      description := description
      localCondition := s.get_condition_expr
      regionalCondition := get_condition_expr_of s.stateContext
      values := values
      table := table
      regionId := s.regionId }] }

/-- The per-entry loop of `ConstraintBuilder::build_lookups`: each requested
value is multiplied by the entry's conjoined condition, the requested tuple
is fatally asserted to be no wider than the table tuple (`none` models the
assertion failure), zero-padded on the right up to the table's width, and
zipped with the table columns. -/
def build_lookups_list : List LookupData → Option (List (String × List (Expression × Expression)))
  | [] => some []
  | lk :: rest =>
    if lk.values.length ≤ lk.table.length then
      match build_lookups_list rest with
      | some l =>
        let values := lk.values.map (fun v => Expression.Product v lk.condition)
        let padded := values ++ List.replicate (lk.table.length - values.length) (.Constant 0)
        some ((lk.description, padded.zip lk.table) :: l)
      | none => none
    else none

/-- `ConstraintBuilder::build_lookups` over the accumulated lookup list. -/
def CB.build_lookups (s : CB C) : Option (List (String × List (Expression × Expression))) :=
  build_lookups_list s.lookups

/-- A builder operation, for stating trace-level properties of sequences of
builder calls. -/
inductive Op (C : Type) where
  | pushCondition : Expression → Op C
  | popCondition : Op C
  | addConstraint : Nat → String → Expression → Op C
  | storeExpression : String → Expression → C → Op C
  | addLookup : String → List Expression → List Expression → Op C
  | queryOne : C → Op C
  | pushRegion : Nat → Nat → Op C
  | popRegion : Op C
deriving DecidableEq

/-- Whether an operation opens or closes a region. -/
def Op.touchesRegion : Op C → Bool
  | .pushRegion _ _ => true
  | .popRegion => true
  | _ => false

/-- Run one builder operation; `none` is a panic (or exhausted fuel for the
splitter inside `add_constraint`). -/
def exec_op [DecidableEq C] (sfe : Expression → C) (op : Op C) (s : CB C) : Option (CB C) :=
  match op with
  | .pushCondition c => some (s.push_condition c)
  | .popCondition => some s.pop_condition
  | .addConstraint fuel name e =>
    match s.add_constraint sfe fuel name e with
    | .ok s' => some s'
    | .panic => none
    | .fuelOut => none
  | .storeExpression name e ct => (s.store_expression name e ct none).map (fun p => p.2)
  | .addLookup d v t => some (s.add_lookup d v t)
  | .queryOne ct => (s.query_one ct).map (fun p => p.2)
  | .pushRegion id h => s.push_region id h
  | .popRegion => s.pop_region

/-- Run a sequence of builder operations. -/
def exec_ops [DecidableEq C] (sfe : Expression → C) : List (Op C) → CB C → Option (CB C)
  | [], s => some s
  | op :: rest, s =>
    match exec_op sfe op s with
    | some s' => exec_ops sfe rest s'
    | none => none

/-- An assignment satisfies the stored-expression records of the current
region: each cached cell carries the value of the expression stored in
it (these are exactly the equality constraints `cell == expression` that
`store_expression` emits). -/
def StoredOk {F : Type} [CommRing F] (s : CB C) (σ : Assign F) : Prop :=
  ∀ st ∈ s.storedExpressions s.regionId, σ.adv st.cell = st.expr.eval σ

/-- State evolution produced by the splitter and the expression cache: all
region bookkeeping, the degree budgets and the condition stacks are
untouched, the cell-manager presence is preserved, and the constraint list
and every region's stored-expression list only grow by appending. -/
structure Extends (s s' : CB C) : Prop where
  maxGlobalDegree : s'.maxGlobalDegree = s.maxGlobalDegree
  maxDegree : s'.maxDegree = s.maxDegree
  conditions : s'.conditions = s.conditions
  regionId : s'.regionId = s.regionId
  stateContext : s'.stateContext = s.stateContext
  regionConstraintsStart : s'.regionConstraintsStart = s.regionConstraintsStart
  cmSome : s'.cellManager.isSome = s.cellManager.isSome
  constraints : ∃ t, s'.constraints = s.constraints ++ t
  stored : ∀ rid, ∃ t, s'.storedExpressions rid = s.storedExpressions rid ++ t

/-- Termination-and-degree specification for the splitter on one
expression: from every builder state with degree budget at least 2, an
active region and an attached cell manager, some amount of fuel makes
`split_go` return an expression whose degree is within the budget. -/
def SplitTerm [DecidableEq C] (sfe : Expression → C) (name : String) (e : Expression) : Prop :=
  ∀ s : CB C, 2 ≤ s.maxDegree → s.regionId ≠ 0 → s.cellManager.isSome →
    ∃ fuel r s', split_go sfe name fuel (.expr e) s = .ok (r, s') ∧ r.degree ≤ s.maxDegree

/-- A trivial cell-type policy (a single classification) used for concrete
instances. -/
def sfe0 : Expression → Nat := fun _ => 0

/-- A builder state inside region 1 with degree budget 1: the state reached
by `push_region(1, _)` on a fresh builder with global degree 1. -/
def cbBudgetOne : CB Nat where
  constraints := []
  maxGlobalDegree := 1
  maxDegree := 1
  conditions := []
  lookups := []
  storedExpressions := fun _ => []
  cellManager := some 0
  regionId := 1
  stateContext := []
  regionConstraintsStart := 0

/-- A builder state inside region 1 with degree budget 2: the state reached
by `push_region(1, _)` on a fresh builder with global degree 2. -/
def cbBudgetTwo : CB Nat where
  constraints := []
  maxGlobalDegree := 2
  maxDegree := 2
  conditions := []
  lookups := []
  storedExpressions := fun _ => []
  cellManager := some 0
  regionId := 1
  stateContext := []
  regionConstraintsStart := 0

/-- A builder state whose effective condition (both live and snapshotted)
has degree 2 while the global degree budget is only 1: entering or leaving
a region from here underflows the budget subtraction. -/
def cbHighCond : CB Nat where
  constraints := []
  maxGlobalDegree := 1
  maxDegree := 1
  conditions := [.Product (.Advice 0) (.Advice 1)]
  lookups := []
  storedExpressions := fun _ => []
  cellManager := some 0
  regionId := 0
  stateContext := [.Product (.Advice 0) (.Advice 1)]
  regionConstraintsStart := 0

/-- The pieces of builder state that every region-free builder operation
preserves: the region bookkeeping (id, base-condition snapshot, start
marker) and the already-recorded constraint prefix. -/
structure OpFrame (s s' : CB C) : Prop where
  regionId : s'.regionId = s.regionId
  stateContext : s'.stateContext = s.stateContext
  regionConstraintsStart : s'.regionConstraintsStart = s.regionConstraintsStart
  constraints : ∃ t, s'.constraints = s.constraints ++ t

/-- A fresh builder with global degree budget 3 and a cell manager. -/
def cbC3 : CB Nat := CB.new Nat 3 (some 0)

/-- The state after `push_region(1, 1)` on `cbC3`. -/
def c3s1 : CB Nat := { cbC3 with regionId := 1 }

/-- The state after additionally adding the constraint `cell 0` inside the
region. -/
def c3s2 : CB Nat := { c3s1 with constraints := [("c", .Advice 0)] }

/-- The state after the matching `pop_region`: the constraint is gated by
the (empty, hence constant-1) base condition. -/
def c3s3 : CB Nat :=
  { c3s2 with constraints := [("c", .Product (.Constant 1) (.Advice 0))], regionId := 0 }

/-- A rational assignment with cell 0 at 1 and all other cells at 0: it
satisfies the condition cell 100 = 0 while leaving the stored-expression
equality `cell 0 = cell 7` violated. -/
def assignC2 : Assign ℚ :=
  ⟨fun i => if i = 0 then 1 else 0, fun _ => 0, fun _ => 0⟩

/-- The state after `add_constraint("n", cell 0)` on `cbC3` (global scope:
no condition, no region, no splitting). -/
def c2res : CB Nat := { cbC3 with constraints := [("n", .Advice 0)] }

/-- The state after storing the expression `cell 5` in `cbBudgetTwo`: cell 0
is allocated, the bare equality constraint is appended and the cache entry
recorded under region 1. -/
def c2store : CB Nat :=
  { cbBudgetTwo with
    cellManager := some 1
    constraints := [("a (stored expression)", sub_expr (.Advice 0) (.Advice 5))]
    storedExpressions := fun rid =>
      if rid = 1 then [⟨"a (stored expression)", 0, 0, .Advice 5⟩] else [] }

/-- Concrete table sources for the merge example: regional condition 1,
local conditions given by the indicator cells 10, 11, 12, and value tuples
[5,6], [7,8], [9,10]. -/
def mergeData1 : TableData :=
  ⟨"t1", .Constant 1, .Advice 10, [.Constant 5, .Constant 6], 1⟩

/-- Second merge source (indicator cell 11, values [7,8]). -/
def mergeData2 : TableData :=
  ⟨"t2", .Constant 1, .Advice 11, [.Constant 7, .Constant 8], 1⟩

/-- Third merge source (indicator cell 12, values [9,10]). -/
def mergeData3 : TableData :=
  ⟨"t3", .Constant 1, .Advice 12, [.Constant 9, .Constant 10], 1⟩

/-- A rational assignment activating only indicator cell 10. -/
def assignQ : Assign ℚ :=
  ⟨fun i => if i = 10 then 1 else 0, fun _ => 0, fun _ => 0⟩

/-- A builder state holding one pending lookup: the 1-tuple `[cell 0]`
(under indicator condition cell 20, regional condition 1) requested against
the 2-column table `[fixed 0, fixed 1]`. -/
def cbLookup : CB Nat where
  constraints := []
  maxGlobalDegree := 4
  maxDegree := 4
  conditions := []
  lookups := [⟨"lk", .Constant 1, .Advice 20, [.Advice 0], [.Fixed 0, .Fixed 1], 1⟩]
  storedExpressions := fun _ => []
  cellManager := some 0
  regionId := 0
  stateContext := []
  regionConstraintsStart := 0

/-! ## Basic lemmas about state evolution and the expression cache -/

theorem extends_refl (s : CB C) : Extends s s :=
  ⟨rfl, rfl, rfl, rfl, rfl, rfl, rfl, ⟨[], (List.append_nil _).symm⟩,
    fun _ => ⟨[], (List.append_nil _).symm⟩⟩

theorem extends_trans {s1 s2 s3 : CB C} (h1 : Extends s1 s2) (h2 : Extends s2 s3) :
    Extends s1 s3 := by
  refine ⟨?_, ?_, ?_, ?_, ?_, ?_, ?_, ?_, ?_⟩
  · rw [h2.maxGlobalDegree, h1.maxGlobalDegree]
  · rw [h2.maxDegree, h1.maxDegree]
  · rw [h2.conditions, h1.conditions]
  · rw [h2.regionId, h1.regionId]
  · rw [h2.stateContext, h1.stateContext]
  · rw [h2.regionConstraintsStart, h1.regionConstraintsStart]
  · rw [h2.cmSome, h1.cmSome]
  · obtain ⟨t1, ht1⟩ := h1.constraints
    obtain ⟨t2, ht2⟩ := h2.constraints
    exact ⟨t1 ++ t2, by rw [ht2, ht1, List.append_assoc]⟩
  · intro rid
    obtain ⟨t1, ht1⟩ := h1.stored rid
    obtain ⟨t2, ht2⟩ := h2.stored rid
    exact ⟨t1 ++ t2, by rw [ht2, ht1, List.append_assoc]⟩

theorem StoredOk.mono {F : Type} [CommRing F] {s s' : CB C} (h : Extends s s')
    {σ : Assign F} (hok : StoredOk s' σ) : StoredOk s σ := by
  intro st hst
  apply hok
  obtain ⟨t, ht⟩ := h.stored s.regionId
  rw [h.regionId, ht]
  exact List.mem_append_left _ hst

theorem store_expression_hit [DecidableEq C] {s : CB C} {e : Expression} {ct : C}
    {st : StoredExpression C} (name : String) (tgt : Option Nat)
    (hf : s.find_stored_expression e ct = some st) :
    s.store_expression name e ct tgt = some (.Advice st.cell, s) := by
  unfold CB.store_expression
  rw [hf]

theorem store_expression_miss [DecidableEq C] {s : CB C} {e : Expression} {ct : C}
    {n : Nat} (name : String)
    (hf : s.find_stored_expression e ct = none) (hcm : s.cellManager = some n) :
    s.store_expression name e ct none = some (.Advice n,
      { s with
        cellManager := some (n + 1)
        constraints := s.constraints ++
          [(name ++ " (stored expression)", sub_expr (.Advice n) e)]
        storedExpressions := fun rid =>
          if rid = s.regionId then
            s.storedExpressions rid ++ [⟨name ++ " (stored expression)", n, ct, e⟩]
          else s.storedExpressions rid }) := by
  unfold CB.store_expression CB.query_one
  rw [hf, hcm]

theorem store_expression_miss_target [DecidableEq C] {s : CB C} {e : Expression} {ct : C}
    (name : String) (tc : Nat)
    (hf : s.find_stored_expression e ct = none) :
    s.store_expression name e ct (some tc) = some (.Advice tc,
      { s with
        constraints := s.constraints ++
          [(name ++ " (stored expression)", sub_expr (.Advice tc) e)]
        storedExpressions := fun rid =>
          if rid = s.regionId then
            s.storedExpressions rid ++ [⟨name ++ " (stored expression)", tc, ct, e⟩]
          else s.storedExpressions rid }) := by
  unfold CB.store_expression
  rw [hf]

theorem store_expression_total [DecidableEq C] (s : CB C) (name : String)
    (e : Expression) (ct : C) (hcm : s.cellManager.isSome) :
    ∃ r s', s.store_expression name e ct none = some (r, s') := by
  cases hf : s.find_stored_expression e ct with
  | some st => exact ⟨_, _, store_expression_hit name none hf⟩
  | none =>
    obtain ⟨n, hn⟩ := Option.isSome_iff_exists.mp hcm
    exact ⟨_, _, store_expression_miss name hf hn⟩

theorem store_expression_shape [DecidableEq C] {s s' : CB C} {e r : Expression} {ct : C}
    {name : String} {tgt : Option Nat}
    (h : s.store_expression name e ct tgt = some (r, s')) :
    (∃ c, r = .Advice c) ∧ Extends s s' := by
  cases hf : s.find_stored_expression e ct with
  | some st =>
    rw [store_expression_hit name tgt hf] at h
    obtain ⟨rfl, rfl⟩ := Prod.mk.injEq .. ▸ Option.some.injEq _ _ ▸ h
    exact ⟨⟨st.cell, rfl⟩, extends_refl s⟩
  | none =>
    have hext : ∀ (cell : Nat) (s1 : CB C), s1.regionId = s.regionId →
        s1.storedExpressions = s.storedExpressions → s1.constraints = s.constraints →
        Extends s1 ({ s1 with
          constraints := s1.constraints ++
            [(name ++ " (stored expression)", sub_expr (.Advice cell) e)]
          storedExpressions := fun rid =>
            if rid = s1.regionId then
              s1.storedExpressions rid ++ [⟨name ++ " (stored expression)", cell, ct, e⟩]
            else s1.storedExpressions rid } : CB C) := by
      intro cell s1 _ _ _
      refine ⟨rfl, rfl, rfl, rfl, rfl, rfl, rfl, ⟨_, rfl⟩, fun rid => ?_⟩
      by_cases hrid : rid = s1.regionId
      · exact ⟨[⟨name ++ " (stored expression)", cell, ct, e⟩], by simp [hrid]⟩
      · exact ⟨[], by simp [hrid]⟩
    cases tgt with
    | some tc =>
      rw [store_expression_miss_target name tc hf] at h
      obtain ⟨rfl, rfl⟩ := Prod.mk.injEq .. ▸ Option.some.injEq _ _ ▸ h
      exact ⟨⟨tc, rfl⟩, hext tc s rfl rfl rfl⟩
    | none =>
      cases hcm : s.cellManager with
      | none =>
        unfold CB.store_expression CB.query_one at h
        rw [hf, hcm] at h
        exact absurd h (by simp)
      | some n =>
        rw [store_expression_miss name hf hcm] at h
        obtain ⟨rfl, rfl⟩ := Prod.mk.injEq .. ▸ Option.some.injEq _ _ ▸ h
        refine ⟨⟨n, rfl⟩, ?_⟩
        have := hext n { s with cellManager := some (n + 1) } rfl rfl rfl
        refine ⟨this.maxGlobalDegree, this.maxDegree, this.conditions, this.regionId,
          this.stateContext, this.regionConstraintsStart, ?_, this.constraints, this.stored⟩
        simp [hcm]

theorem store_expression_eval [DecidableEq C] {s s' : CB C} {e r : Expression} {ct : C}
    {name : String} {tgt : Option Nat}
    (h : s.store_expression name e ct tgt = some (r, s'))
    {F : Type} [CommRing F] (σ : Assign F) (hok : StoredOk s' σ) :
    r.eval σ = e.eval σ := by
  cases hf : s.find_stored_expression e ct with
  | some st =>
    rw [store_expression_hit name tgt hf] at h
    obtain ⟨rfl, rfl⟩ := Prod.mk.injEq .. ▸ Option.some.injEq _ _ ▸ h
    have hmem : st ∈ s.storedExpressions s.regionId :=
      List.mem_of_find?_eq_some hf
    have hp := List.find?_some hf
    have hpe : st.cellType = ct ∧ st.expr = e := of_decide_eq_true hp
    have := hok st hmem
    rw [Expression.eval, this, hpe.2]
  | none =>
    have hmem : ∀ (cell : Nat) (s1 : CB C), s1.regionId = s.regionId →
        s' = { s1 with
          constraints := s1.constraints ++
            [(name ++ " (stored expression)", sub_expr (.Advice cell) e)]
          storedExpressions := fun rid =>
            if rid = s1.regionId then
              s1.storedExpressions rid ++ [⟨name ++ " (stored expression)", cell, ct, e⟩]
            else s1.storedExpressions rid } →
        r = .Advice cell → r.eval σ = e.eval σ := by
      intro cell s1 hrid hs' hr
      have hin : (⟨name ++ " (stored expression)", cell, ct, e⟩ : StoredExpression C) ∈
          s'.storedExpressions s'.regionId := by
        rw [hs']
        simp
      have := hok _ hin
      rw [hr, Expression.eval, this]
    cases tgt with
    | some tc =>
      rw [store_expression_miss_target name tc hf] at h
      obtain ⟨rfl, rfl⟩ := Prod.mk.injEq .. ▸ Option.some.injEq _ _ ▸ h
      exact hmem tc s rfl rfl rfl
    | none =>
      cases hcm : s.cellManager with
      | none =>
        unfold CB.store_expression CB.query_one at h
        rw [hf, hcm] at h
        exact absurd h (by simp)
      | some n =>
        rw [store_expression_miss name hf hcm] at h
        obtain ⟨rfl, rfl⟩ := Prod.mk.injEq .. ▸ Option.some.injEq _ _ ▸ h
        exact hmem n { s with cellManager := some (n + 1) } rfl rfl rfl

/-! ## Partial correctness of the degree-bounded splitter -/

theorem split_go_sound [DecidableEq C] (sfe : Expression → C) (name : String) :
    ∀ (fuel : Nat) (req : SplitReq) (s : CB C) (r : Expression) (s' : CB C),
      split_go sfe name fuel req s = .ok (r, s') →
      Extends s s' ∧ ∀ (F : Type) [CommRing F] (σ : Assign F),
        StoredOk s' σ → r.eval σ = req.evalTarget σ := by
  intro fuel
  induction fuel with
  | zero =>
    intro req s r s' h
    simp [split_go] at h
  | succ fuel ih =>
    intro req s r s' h
    cases req with
    | expr e =>
      cases e with
      | Negated p =>
        simp only [split_go] at h
        split at h
        next hc =>
          split at h
          next r0 s0 heq =>
            simp only [PRes.ok.injEq, Prod.mk.injEq] at h
            obtain ⟨rfl, rfl⟩ := h
            obtain ⟨hext, hsem⟩ := ih (.expr p) s r0 s0 heq
            refine ⟨hext, ?_⟩
            intro F _ σ hok
            simp only [Expression.eval, SplitReq.evalTarget, hsem F σ hok]
          next heq => exact PRes.noConfusion h
          next heq => exact PRes.noConfusion h
        next hc =>
          simp only [PRes.ok.injEq, Prod.mk.injEq] at h
          obtain ⟨rfl, rfl⟩ := h
          exact ⟨extends_refl s, by intro F _ σ _; rfl⟩
      | Scaled p v =>
        simp only [split_go] at h
        split at h
        next hc =>
          split at h
          next r0 s0 heq =>
            simp only [PRes.ok.injEq, Prod.mk.injEq] at h
            obtain ⟨rfl, rfl⟩ := h
            obtain ⟨hext, hsem⟩ := ih (.expr p) s r0 s0 heq
            refine ⟨hext, ?_⟩
            intro F _ σ hok
            simp only [Expression.eval, SplitReq.evalTarget, hsem F σ hok]
          next heq => exact PRes.noConfusion h
          next heq => exact PRes.noConfusion h
        next hc =>
          simp only [PRes.ok.injEq, Prod.mk.injEq] at h
          obtain ⟨rfl, rfl⟩ := h
          exact ⟨extends_refl s, by intro F _ σ _; rfl⟩
      | Sum a b =>
        simp only [split_go] at h
        split at h
        next hc =>
          split at h
          next ra s1 heqa =>
            split at h
            next rb s2 heqb =>
              simp only [PRes.ok.injEq, Prod.mk.injEq] at h
              obtain ⟨rfl, rfl⟩ := h
              obtain ⟨hexta, hsema⟩ := ih (.expr a) s ra s1 heqa
              obtain ⟨hextb, hsemb⟩ := ih (.expr b) s1 rb s2 heqb
              refine ⟨extends_trans hexta hextb, ?_⟩
              intro F _ σ hok
              have hok1 : StoredOk s1 σ := StoredOk.mono hextb hok
              simp only [Expression.eval, SplitReq.evalTarget,
                hsema F σ hok1, hsemb F σ hok]
            next heq => exact PRes.noConfusion h
            next heq => exact PRes.noConfusion h
          next heq => exact PRes.noConfusion h
          next heq => exact PRes.noConfusion h
        next hc =>
          simp only [PRes.ok.injEq, Prod.mk.injEq] at h
          obtain ⟨rfl, rfl⟩ := h
          exact ⟨extends_refl s, by intro F _ σ _; rfl⟩
      | Product a b =>
        simp only [split_go] at h
        split at h
        next hc =>
          obtain ⟨hext, hsem⟩ := ih (.prod a b) s r s' h
          refine ⟨hext, ?_⟩
          intro F _ σ hok
          simp only [Expression.eval, SplitReq.evalTarget] at hsem ⊢
          exact hsem F σ hok
        next hc =>
          simp only [PRes.ok.injEq, Prod.mk.injEq] at h
          obtain ⟨rfl, rfl⟩ := h
          exact ⟨extends_refl s, by intro F _ σ _; rfl⟩
      | Constant c =>
        simp only [split_go] at h
        split at h <;>
          (simp only [PRes.ok.injEq, Prod.mk.injEq] at h
           obtain ⟨rfl, rfl⟩ := h
           exact ⟨extends_refl s, by intro F _ σ _; rfl⟩)
      | Fixed i =>
        simp only [split_go] at h
        split at h <;>
          (simp only [PRes.ok.injEq, Prod.mk.injEq] at h
           obtain ⟨rfl, rfl⟩ := h
           exact ⟨extends_refl s, by intro F _ σ _; rfl⟩)
      | Advice i =>
        simp only [split_go] at h
        split at h <;>
          (simp only [PRes.ok.injEq, Prod.mk.injEq] at h
           obtain ⟨rfl, rfl⟩ := h
           exact ⟨extends_refl s, by intro F _ σ _; rfl⟩)
      | Challenge i =>
        simp only [split_go] at h
        split at h <;>
          (simp only [PRes.ok.injEq, Prod.mk.injEq] at h
           obtain ⟨rfl, rfl⟩ := h
           exact ⟨extends_refl s, by intro F _ σ _; rfl⟩)
    | prod a b =>
      simp only [split_go] at h
      split at h
      next hc =>
        split at h
        next hab =>
          split at h
          next a' s1 heq =>
            obtain ⟨hext2, hsem2⟩ := ih (.prod a' b) s1 r s' h
            have hstep : Extends s s1 ∧ ∀ (F : Type) [CommRing F] (σ : Assign F),
                StoredOk s1 σ → a'.eval σ = a.eval σ := by
              by_cases hda : s.maxDegree < a.degree
              · rw [if_pos hda] at heq
                obtain ⟨hx, hsem⟩ := ih (.expr a) s a' s1 heq
                exact ⟨hx, by intro F instF σ hok; exact hsem F σ hok⟩
              · rw [if_neg hda] at heq
                have hsome : s.store_expression name a (sfe a) none = some (a', s1) := by
                  cases hst : s.store_expression name a (sfe a) none with
                  | some x =>
                    rw [hst] at heq
                    simp only [liftPanic, PRes.ok.injEq] at heq
                    rw [heq]
                  | none => rw [hst] at heq; exact PRes.noConfusion heq
                exact ⟨(store_expression_shape hsome).2,
                  by intro F instF σ hok; exact store_expression_eval hsome σ hok⟩
            obtain ⟨hext1, hsem1⟩ := hstep
            refine ⟨extends_trans hext1 hext2, ?_⟩
            intro F _ σ hok
            have hok1 : StoredOk s1 σ := StoredOk.mono hext2 hok
            simp only [SplitReq.evalTarget] at hsem2 ⊢
            rw [hsem2 F σ hok, hsem1 F σ hok1]
          next heq => exact PRes.noConfusion h
          next heq => exact PRes.noConfusion h
        next hab =>
          split at h
          next b' s1 heq =>
            obtain ⟨hext2, hsem2⟩ := ih (.prod a b') s1 r s' h
            have hstep : Extends s s1 ∧ ∀ (F : Type) [CommRing F] (σ : Assign F),
                StoredOk s1 σ → b'.eval σ = b.eval σ := by
              by_cases hdb : s.maxDegree < b.degree
              · rw [if_pos hdb] at heq
                obtain ⟨hx, hsem⟩ := ih (.expr b) s b' s1 heq
                exact ⟨hx, by intro F instF σ hok; exact hsem F σ hok⟩
              · rw [if_neg hdb] at heq
                have hsome : s.store_expression name b (sfe b) none = some (b', s1) := by
                  cases hst : s.store_expression name b (sfe b) none with
                  | some x =>
                    rw [hst] at heq
                    simp only [liftPanic, PRes.ok.injEq] at heq
                    rw [heq]
                  | none => rw [hst] at heq; exact PRes.noConfusion heq
                exact ⟨(store_expression_shape hsome).2,
                  by intro F instF σ hok; exact store_expression_eval hsome σ hok⟩
            obtain ⟨hext1, hsem1⟩ := hstep
            refine ⟨extends_trans hext1 hext2, ?_⟩
            intro F _ σ hok
            have hok1 : StoredOk s1 σ := StoredOk.mono hext2 hok
            simp only [SplitReq.evalTarget] at hsem2 ⊢
            rw [hsem2 F σ hok, hsem1 F σ hok1]
          next heq => exact PRes.noConfusion h
          next heq => exact PRes.noConfusion h
      next hc =>
        simp only [PRes.ok.injEq, Prod.mk.injEq] at h
        obtain ⟨rfl, rfl⟩ := h
        exact ⟨extends_refl s, by intro F _ σ _; rfl⟩

theorem split_go_mono [DecidableEq C] (sfe : Expression → C) (name : String) :
    ∀ (fuel fuel' : Nat), fuel ≤ fuel' →
      ∀ (req : SplitReq) (s : CB C) (x : Expression × CB C),
        split_go sfe name fuel req s = .ok x → split_go sfe name fuel' req s = .ok x := by
  intro fuel
  induction fuel with
  | zero =>
    intro fuel' _ req s x h
    simp [split_go] at h
  | succ fuel ih =>
    intro fuel' hle req s x h
    obtain ⟨fuel'', rfl⟩ : ∃ k, fuel' = k + 1 := ⟨fuel' - 1, by omega⟩
    have hle' : fuel ≤ fuel'' := by omega
    cases req with
    | expr e =>
      cases e with
      | Negated p =>
        simp only [split_go] at h ⊢
        split at h
        next hc =>
          rw [if_pos hc]
          split at h
          next r0 s0 heq =>
            rw [ih fuel'' hle' (.expr p) s (r0, s0) heq]
            exact h
          next heq => exact PRes.noConfusion h
          next heq => exact PRes.noConfusion h
        next hc =>
          rw [if_neg hc]
          exact h
      | Scaled p v =>
        simp only [split_go] at h ⊢
        split at h
        next hc =>
          rw [if_pos hc]
          split at h
          next r0 s0 heq =>
            rw [ih fuel'' hle' (.expr p) s (r0, s0) heq]
            exact h
          next heq => exact PRes.noConfusion h
          next heq => exact PRes.noConfusion h
        next hc =>
          rw [if_neg hc]
          exact h
      | Sum a b =>
        simp only [split_go] at h ⊢
        split at h
        next hc =>
          rw [if_pos hc]
          split at h
          next ra s1 heqa =>
            rw [ih fuel'' hle' (.expr a) s (ra, s1) heqa]
            split at h
            next rb s2 heqb =>
              rw [ih fuel'' hle' (.expr b) s1 (rb, s2) heqb]
              exact h
            next heq => exact PRes.noConfusion h
            next heq => exact PRes.noConfusion h
          next heq => exact PRes.noConfusion h
          next heq => exact PRes.noConfusion h
        next hc =>
          rw [if_neg hc]
          exact h
      | Product a b =>
        simp only [split_go] at h ⊢
        split at h
        next hc =>
          rw [if_pos hc]
          exact ih fuel'' hle' (.prod a b) s x h
        next hc =>
          rw [if_neg hc]
          exact h
      | Constant c =>
        simp only [split_go] at h ⊢
        split at h
        next hc => rw [if_pos hc]; exact h
        next hc => rw [if_neg hc]; exact h
      | Fixed i =>
        simp only [split_go] at h ⊢
        split at h
        next hc => rw [if_pos hc]; exact h
        next hc => rw [if_neg hc]; exact h
      | Advice i =>
        simp only [split_go] at h ⊢
        split at h
        next hc => rw [if_pos hc]; exact h
        next hc => rw [if_neg hc]; exact h
      | Challenge i =>
        simp only [split_go] at h ⊢
        split at h
        next hc => rw [if_pos hc]; exact h
        next hc => rw [if_neg hc]; exact h
    | prod a b =>
      simp only [split_go] at h ⊢
      split at h
      next hc =>
        rw [if_pos hc]
        split at h
        next hab =>
          rw [if_pos hab]
          split at h
          next a' s1 heq =>
            by_cases hda : s.maxDegree < a.degree
            · rw [if_pos hda] at heq
              rw [if_pos hda, ih fuel'' hle' (.expr a) s (a', s1) heq]
              exact ih fuel'' hle' (.prod a' b) s1 x h
            · rw [if_neg hda] at heq
              rw [if_neg hda, heq]
              exact ih fuel'' hle' (.prod a' b) s1 x h
          next heq => exact PRes.noConfusion h
          next heq => exact PRes.noConfusion h
        next hab =>
          rw [if_neg hab]
          split at h
          next b' s1 heq =>
            by_cases hdb : s.maxDegree < b.degree
            · rw [if_pos hdb] at heq
              rw [if_pos hdb, ih fuel'' hle' (.expr b) s (b', s1) heq]
              exact ih fuel'' hle' (.prod a b') s1 x h
            · rw [if_neg hdb] at heq
              rw [if_neg hdb, heq]
              exact ih fuel'' hle' (.prod a b') s1 x h
          next heq => exact PRes.noConfusion h
          next heq => exact PRes.noConfusion h
      next hc =>
        rw [if_neg hc]
        exact h

/-! ## Termination and the degree bound of the splitter -/

theorem split_go_term_prod [DecidableEq C] (sfe : Expression → C) (name : String) :
    ∀ (n : Nat) (a b : Expression) (s : CB C),
      2 ≤ s.maxDegree → s.regionId ≠ 0 → s.cellManager.isSome →
      a.degree + b.degree ≤ n →
      (a.degree ≤ s.maxDegree ∨ SplitTerm sfe name a) →
      (b.degree ≤ s.maxDegree ∨ SplitTerm sfe name b) →
      ∃ fuel r s', split_go sfe name fuel (.prod a b) s = .ok (r, s') ∧
        r.degree ≤ s.maxDegree := by
  intro n
  induction n using Nat.strong_induction_on with
  | _ n ihn =>
    intro a b s hmd hreg hcm hn ha hb
    by_cases hc : s.maxDegree < a.degree + b.degree
    · by_cases hab : b.degree ≤ a.degree
      · -- the first operand is reduced
        by_cases hda : s.maxDegree < a.degree
        · have hta : SplitTerm sfe name a := ha.resolve_left (by omega)
          obtain ⟨f1, a', s1, hrun, hdeg⟩ := hta s hmd hreg hcm
          have hext := (split_go_sound sfe name f1 (.expr a) s a' s1 hrun).1
          obtain ⟨f2, r, s', hrun2, hdeg2⟩ :=
            ihn (a'.degree + b.degree) (by omega) a' b s1
              (hext.maxDegree ▸ hmd) (hext.regionId ▸ hreg) (hext.cmSome ▸ hcm)
              (le_refl _) (Or.inl (hext.maxDegree ▸ hdeg))
              (hb.imp_left (fun hd => hext.maxDegree ▸ hd))
          refine ⟨max f1 f2 + 1, r, s', ?_, ?_⟩
          · simp only [split_go]
            rw [if_pos hc, if_pos hab, if_pos hda,
              split_go_mono sfe name f1 (max f1 f2) (le_max_left f1 f2) (.expr a) s
                (a', s1) hrun]
            exact split_go_mono sfe name f2 (max f1 f2) (le_max_right f1 f2)
              (.prod a' b) s1 (r, s') hrun2
          · rw [← hext.maxDegree]
            exact hdeg2
        · obtain ⟨ra, s1, hst⟩ := store_expression_total s name a (sfe a) hcm
          obtain ⟨⟨c, rfl⟩, hext⟩ := store_expression_shape hst
          have ha2 : 2 ≤ a.degree := by omega
          have hd1 : (Expression.Advice c).degree = 1 := rfl
          obtain ⟨f2, r, s', hrun2, hdeg2⟩ :=
            ihn ((Expression.Advice c).degree + b.degree) (by rw [hd1]; omega)
              (.Advice c) b s1
              (hext.maxDegree ▸ hmd) (hext.regionId ▸ hreg) (hext.cmSome ▸ hcm)
              (le_refl _) (Or.inl (by rw [hd1, hext.maxDegree]; omega))
              (hb.imp_left (fun hd => hext.maxDegree ▸ hd))
          refine ⟨f2 + 1, r, s', ?_, ?_⟩
          · simp only [split_go]
            rw [if_pos hc, if_pos hab, if_neg hda, hst]
            exact hrun2
          · rw [← hext.maxDegree]
            exact hdeg2
      · -- the second operand is reduced
        by_cases hdb : s.maxDegree < b.degree
        · have htb : SplitTerm sfe name b := hb.resolve_left (by omega)
          obtain ⟨f1, b', s1, hrun, hdeg⟩ := htb s hmd hreg hcm
          have hext := (split_go_sound sfe name f1 (.expr b) s b' s1 hrun).1
          obtain ⟨f2, r, s', hrun2, hdeg2⟩ :=
            ihn (a.degree + b'.degree) (by omega) a b' s1
              (hext.maxDegree ▸ hmd) (hext.regionId ▸ hreg) (hext.cmSome ▸ hcm)
              (le_refl _) (ha.imp_left (fun hd => hext.maxDegree ▸ hd))
              (Or.inl (hext.maxDegree ▸ hdeg))
          refine ⟨max f1 f2 + 1, r, s', ?_, ?_⟩
          · simp only [split_go]
            rw [if_pos hc, if_neg hab, if_pos hdb,
              split_go_mono sfe name f1 (max f1 f2) (le_max_left f1 f2) (.expr b) s
                (b', s1) hrun]
            exact split_go_mono sfe name f2 (max f1 f2) (le_max_right f1 f2)
              (.prod a b') s1 (r, s') hrun2
          · rw [← hext.maxDegree]
            exact hdeg2
        · obtain ⟨rb, s1, hst⟩ := store_expression_total s name b (sfe b) hcm
          obtain ⟨⟨c, rfl⟩, hext⟩ := store_expression_shape hst
          have hb2 : 2 ≤ b.degree := by omega
          have hd1 : (Expression.Advice c).degree = 1 := rfl
          obtain ⟨f2, r, s', hrun2, hdeg2⟩ :=
            ihn (a.degree + (Expression.Advice c).degree) (by rw [hd1]; omega)
              a (.Advice c) s1
              (hext.maxDegree ▸ hmd) (hext.regionId ▸ hreg) (hext.cmSome ▸ hcm)
              (le_refl _) (ha.imp_left (fun hd => hext.maxDegree ▸ hd))
              (Or.inl (by rw [hd1, hext.maxDegree]; omega))
          refine ⟨f2 + 1, r, s', ?_, ?_⟩
          · simp only [split_go]
            rw [if_pos hc, if_neg hab, if_neg hdb, hst]
            exact hrun2
          · rw [← hext.maxDegree]
            exact hdeg2
    · refine ⟨1, .Product a b, s, ?_, ?_⟩
      · simp only [split_go]
        rw [if_neg hc]
      · simp only [Expression.degree]
        omega

theorem split_term [DecidableEq C] (sfe : Expression → C) (name : String) :
    ∀ e : Expression, SplitTerm sfe name e := by
  intro e
  induction e with
  | Constant c =>
    intro s hmd hreg hcm
    refine ⟨1, .Constant c, s, ?_, by simp [Expression.degree]⟩
    simp only [split_go]
    rw [if_neg (by simp [Expression.degree])]
  | Fixed i =>
    intro s hmd hreg hcm
    refine ⟨1, .Fixed i, s, ?_, by simp [Expression.degree]; omega⟩
    simp only [split_go]
    rw [if_neg (by simp [Expression.degree]; omega)]
  | Advice i =>
    intro s hmd hreg hcm
    refine ⟨1, .Advice i, s, ?_, by simp [Expression.degree]; omega⟩
    simp only [split_go]
    rw [if_neg (by simp [Expression.degree]; omega)]
  | Challenge i =>
    intro s hmd hreg hcm
    refine ⟨1, .Challenge i, s, ?_, by simp [Expression.degree]⟩
    simp only [split_go]
    rw [if_neg (by simp [Expression.degree])]
  | Negated p ih =>
    intro s hmd hreg hcm
    by_cases hd : s.maxDegree < (Expression.Negated p).degree
    · obtain ⟨f, r, s', hrun, hdeg⟩ := ih s hmd hreg hcm
      refine ⟨f + 1, .Negated r, s', ?_, by simpa [Expression.degree] using hdeg⟩
      simp only [split_go]
      rw [if_pos ⟨hd, hreg⟩, hrun]
    · refine ⟨1, .Negated p, s, ?_, by omega⟩
      simp only [split_go]
      rw [if_neg (fun hcon => hd hcon.1)]
  | Scaled p v ih =>
    intro s hmd hreg hcm
    by_cases hd : s.maxDegree < (Expression.Scaled p v).degree
    · obtain ⟨f, r, s', hrun, hdeg⟩ := ih s hmd hreg hcm
      refine ⟨f + 1, .Scaled r v, s', ?_, by simpa [Expression.degree] using hdeg⟩
      simp only [split_go]
      rw [if_pos ⟨hd, hreg⟩, hrun]
    · refine ⟨1, .Scaled p v, s, ?_, by omega⟩
      simp only [split_go]
      rw [if_neg (fun hcon => hd hcon.1)]
  | Sum a b iha ihb =>
    intro s hmd hreg hcm
    by_cases hd : s.maxDegree < (Expression.Sum a b).degree
    · obtain ⟨f1, ra, s1, hruna, hdega⟩ := iha s hmd hreg hcm
      have hext := (split_go_sound sfe name f1 (.expr a) s ra s1 hruna).1
      obtain ⟨f2, rb, s2, hrunb, hdegb⟩ := ihb s1
        (hext.maxDegree ▸ hmd) (hext.regionId ▸ hreg) (hext.cmSome ▸ hcm)
      have h1 := split_go_mono sfe name f1 (max f1 f2) (le_max_left f1 f2) (.expr a) s
        (ra, s1) hruna
      have h2 := split_go_mono sfe name f2 (max f1 f2) (le_max_right f1 f2) (.expr b) s1
        (rb, s2) hrunb
      refine ⟨max f1 f2 + 1, .Sum ra rb, s2, ?_, ?_⟩
      · simp only [split_go]
        rw [if_pos ⟨hd, hreg⟩]
        simp only [h1, h2]
      · simp only [Expression.degree]
        rw [hext.maxDegree] at hdegb
        omega
    · refine ⟨1, .Sum a b, s, ?_, by omega⟩
      simp only [split_go]
      rw [if_neg (fun hcon => hd hcon.1)]
  | Product a b iha ihb =>
    intro s hmd hreg hcm
    by_cases hd : s.maxDegree < (Expression.Product a b).degree
    · obtain ⟨f, r, s', hrun, hdeg⟩ :=
        split_go_term_prod sfe name (a.degree + b.degree) a b s hmd hreg hcm
          (le_refl _) (Or.inr iha) (Or.inr ihb)
      refine ⟨f + 1, r, s', ?_, hdeg⟩
      simp only [split_go]
      rw [if_pos ⟨hd, hreg⟩]
      exact hrun
    · refine ⟨1, .Product a b, s, ?_, by omega⟩
      simp only [split_go]
      rw [if_neg (fun hcon => hd hcon.1)]

/-! ## Divergence of the product-reduction loop at budget 1 -/

theorem split_go_loop_div [DecidableEq C] (sfe : Expression → C) (name : String) :
    ∀ (fuel : Nat) (a b : Expression) (s : CB C),
      s.maxDegree = 1 → s.regionId ≠ 0 → s.cellManager.isSome →
      a.degree = 1 → b.degree = 1 →
      split_go sfe name fuel (.prod a b) s = .fuelOut := by
  intro fuel
  induction fuel with
  | zero =>
    intro a b s _ _ _ _ _
    simp [split_go]
  | succ fuel ih =>
    intro a b s hmd hreg hcm hda hdb
    simp only [split_go]
    rw [if_pos (show s.maxDegree < a.degree + b.degree by omega),
      if_pos (show b.degree ≤ a.degree by omega),
      if_neg (show ¬s.maxDegree < a.degree by omega)]
    obtain ⟨r, s1, hst⟩ := store_expression_total s name a (sfe a) hcm
    obtain ⟨⟨c, rfl⟩, hext⟩ := store_expression_shape hst
    rw [hst]
    exact ih (.Advice c) b s1 (hext.maxDegree.trans hmd)
      (by rw [hext.regionId]; exact hreg) (by rw [hext.cmSome]; exact hcm) rfl hdb

/-- C1 (amended): for every expression tree and every degree budget of at
least 2 — with a region active and a cell manager attached, so the budget
is in force and stored cells can be allocated — `split_expression`
terminates and returns an expression of degree at most the budget that
evaluates identically to the input under the equality constraints recorded
for the stored-expression cells it uses.  (The original claim's "every
positive budget" fails at budget 1: see the counterexample, where the
product-reduction loop never terminates.) -/
theorem C1_split_degree_bound [DecidableEq C] (sfe : Expression → C) (name : String)
    (e : Expression) (s : CB C) (hB : 2 ≤ s.maxDegree) (hreg : s.regionId ≠ 0)
    (hcm : s.cellManager.isSome) :
    ∃ fuel r s', split_expression sfe fuel name e s = .ok (r, s') ∧
      r.degree ≤ s.maxDegree ∧ Extends s s' ∧
      ∀ (F : Type) [Field F] (σ : Assign F), StoredOk s' σ → r.eval σ = e.eval σ := by
  obtain ⟨fuel, r, s', hrun, hdeg⟩ := split_term sfe name e s hB hreg hcm
  obtain ⟨hext, hsem⟩ := split_go_sound sfe name fuel (.expr e) s r s' hrun
  exact ⟨fuel, r, s', hrun, hdeg, hext, by intro F instF σ hok; exact hsem F σ hok⟩

/-- Witness for C1: the hypotheses are satisfiable — a concrete region
state with budget 2 and a cell manager, on the product of two cells. -/
theorem C1_witness :
    (2 ≤ cbBudgetTwo.maxDegree ∧ cbBudgetTwo.regionId ≠ 0 ∧
      cbBudgetTwo.cellManager.isSome) ∧
    (∃ fuel r s', split_expression sfe0 fuel "w" (.Product (.Advice 0) (.Advice 1))
        cbBudgetTwo = .ok (r, s') ∧
      r.degree ≤ cbBudgetTwo.maxDegree ∧ Extends cbBudgetTwo s' ∧
      ∀ (F : Type) [Field F] (σ : Assign F), StoredOk s' σ →
        r.eval σ = (Expression.Product (.Advice 0) (.Advice 1)).eval σ) :=
  ⟨⟨by decide, by decide, by decide⟩,
    C1_split_degree_bound sfe0 "w" (.Product (.Advice 0) (.Advice 1)) cbBudgetTwo
      (by decide) (by decide) (by decide)⟩

/-- C1 counterexample: at budget 1 (a positive budget, region active, cell
manager attached) `split_expression` on the product of two cells never
returns: the reduction loop replaces a degree-1 operand by a fresh
degree-1 stored cell forever.  So the claim fails for budget 1. -/
theorem C1_counterexample :
    ¬ ∃ fuel r s', split_expression sfe0 fuel "split"
        (.Product (.Advice 0) (.Advice 1)) cbBudgetOne = .ok (r, s') := by
  rintro ⟨fuel, r, s', h⟩
  have hdiv : split_expression sfe0 fuel "split"
      (.Product (.Advice 0) (.Advice 1)) cbBudgetOne = .fuelOut := by
    cases fuel with
    | zero => simp [split_expression, split_go]
    | succ fuel =>
      simp only [split_expression, split_go]
      rw [if_pos (show cbBudgetOne.maxDegree <
          (Expression.Product (.Advice 0) (.Advice 1)).degree ∧
          cbBudgetOne.regionId ≠ 0 by exact ⟨by decide, by decide⟩)]
      exact split_go_loop_div sfe0 "split" fuel (.Advice 0) (.Advice 1) cbBudgetOne
        rfl (by decide) (by decide) rfl rfl
  rw [h] at hdiv
  exact PRes.noConfusion hdiv

/-! ## Region entry and exit: assertions and the budget subtraction -/

/-- C4 (amended): `push_region` fails fatally when the region id is 0; but
calling it while a region is already active is not detected — with a
nonzero id, an attached cell manager and a condition degree within the
global budget it succeeds regardless of the builder's current region id.
(The original claim's second half fails: see the counterexample.) -/
theorem C4_push_region_asserts (s : CB C) (regionId height : Nat) :
    (regionId = 0 → s.push_region regionId height = none) ∧
    (regionId ≠ 0 → s.cellManager.isSome →
      s.get_condition_expr.degree ≤ s.maxGlobalDegree →
      ∃ s', s.push_region regionId height = some s' ∧ s'.regionId = regionId) := by
  constructor
  · intro h
    simp [CB.push_region, h]
  · intro hid hcm hdeg
    obtain ⟨n, hn⟩ := Option.isSome_iff_exists.mp hcm
    refine ⟨{ s with
      regionId := regionId
      stateContext := s.conditions
      maxDegree := s.maxGlobalDegree - s.get_condition_expr.degree
      conditions := []
      regionConstraintsStart := s.constraints.length
      cellManager := some n }, ?_, rfl⟩
    unfold CB.push_region
    rw [if_neg hid, if_pos hdeg, hn]

/-- Witness for C4: pushing region id 0 fails; pushing a fresh nonzero id
from a state that is already inside region 1 succeeds. -/
theorem C4_witness :
    (cbBudgetTwo.push_region 0 5 = none) ∧
    (∃ s', cbBudgetTwo.push_region 2 5 = some s' ∧ s'.regionId = 2) :=
  ⟨(C4_push_region_asserts cbBudgetTwo 0 5).1 rfl,
    (C4_push_region_asserts cbBudgetTwo 2 5).2 (by decide) (by decide) (by decide)⟩

/-- C4 counterexample: the builder `cbBudgetTwo` is inside region 1, yet
`push_region(2, 5)` succeeds instead of failing fatally — pushing while a
region is already active is not asserted against. -/
theorem C4_counterexample :
    cbBudgetTwo.regionId = 1 ∧ (cbBudgetTwo.push_region 2 5).isSome = true :=
  ⟨rfl, by decide⟩

/-- C9: the region budget is the global budget minus the degree of the
effective condition, by unchecked subtraction: whenever that degree exceeds
the global budget, `push_region` (and `pop_region`, which recomputes the
budget from the restored stack) aborts with the underflow (the debug-build
behaviour of the `usize` subtraction) instead of reporting a descriptive
error; when the degree is within the budget the difference is stored as the
region's budget. -/
theorem C9_budget_underflow (s : CB C) (regionId height : Nat) :
    (s.maxGlobalDegree < s.get_condition_expr.degree →
      s.push_region regionId height = none) ∧
    (s.maxGlobalDegree < (get_condition_expr_of s.stateContext).degree →
      s.pop_region = none) ∧
    (regionId ≠ 0 → s.cellManager.isSome →
      s.get_condition_expr.degree ≤ s.maxGlobalDegree →
      ∀ s', s.push_region regionId height = some s' →
        s'.maxDegree = s.maxGlobalDegree - s.get_condition_expr.degree) := by
  refine ⟨?_, ?_, ?_⟩
  · intro h
    unfold CB.push_region
    by_cases hid : regionId = 0
    · rw [if_pos hid]
    · rw [if_neg hid, if_neg (by omega)]
  · intro h
    unfold CB.pop_region
    rw [if_neg (by omega)]
  · intro hid hcm hdeg s' h
    obtain ⟨n, hn⟩ := Option.isSome_iff_exists.mp hcm
    unfold CB.push_region at h
    rw [if_neg hid, if_pos hdeg, hn] at h
    obtain rfl := Option.some.inj h
    rfl

/-- Witness for C9: a concrete state whose condition has degree 2 against a
global budget of 1 — both region entry and region exit abort — and a
concrete in-budget push whose stored budget is the difference. -/
theorem C9_witness :
    (cbHighCond.maxGlobalDegree < cbHighCond.get_condition_expr.degree ∧
      cbHighCond.push_region 1 1 = none ∧ cbHighCond.pop_region = none) ∧
    (∀ s', cbBudgetTwo.push_region 2 5 = some s' →
      s'.maxDegree = cbBudgetTwo.maxGlobalDegree -
        cbBudgetTwo.get_condition_expr.degree) :=
  ⟨⟨by decide,
    (C9_budget_underflow cbHighCond 1 1).1 (by decide),
    (C9_budget_underflow cbHighCond 1 1).2.1 (by decide)⟩,
    (C9_budget_underflow cbBudgetTwo 2 5).2.2 (by decide) (by decide) (by decide)⟩

/-- C10: `pop_condition` on an empty condition stack is a silent no-op: the
builder state is unchanged and the effective condition stays at the
constant 1 (true), so unbalanced pops are not detected. -/
theorem C10_pop_condition_noop (s : CB C) (h : s.conditions = []) :
    s.pop_condition = s ∧ s.pop_condition.get_condition_expr = .Constant 1 := by
  constructor
  · cases s
    simp_all [CB.pop_condition]
  · simp [CB.pop_condition, CB.get_condition_expr, CB.get_condition, h]

/-- Witness for C10: popping a condition from a freshly constructed builder
(empty stack) changes nothing and the effective condition is 1. -/
theorem C10_witness :
    (CB.new Nat 3 (some 0)).conditions = [] ∧
    ((CB.new Nat 3 (some 0)).pop_condition = CB.new Nat 3 (some 0) ∧
      (CB.new Nat 3 (some 0)).pop_condition.get_condition_expr = .Constant 1) :=
  ⟨rfl, C10_pop_condition_noop (CB.new Nat 3 (some 0)) rfl⟩

/-! ## Cache idempotence of the stored-expression registry -/

theorem store_expression_cached [DecidableEq C] {s s1 : CB C} {e r : Expression}
    {ct : C} {n1 : String} (n2 : String)
    (h : s.store_expression n1 e ct none = some (r, s1)) :
    s1.store_expression n2 e ct none = some (r, s1) := by
  cases hf : s.find_stored_expression e ct with
  | some st =>
    rw [store_expression_hit n1 none hf] at h
    obtain ⟨rfl, rfl⟩ := Prod.mk.injEq .. ▸ Option.some.injEq _ _ ▸ h
    rw [store_expression_hit n2 none hf]
  | none =>
    cases hcm : s.cellManager with
    | none =>
      unfold CB.store_expression CB.query_one at h
      rw [hf, hcm] at h
      exact absurd h (by simp)
    | some n =>
      rw [store_expression_miss n1 hf hcm] at h
      obtain ⟨rfl, rfl⟩ := Prod.mk.injEq .. ▸ Option.some.injEq _ _ ▸ h
      have hfind2 : CB.find_stored_expression
          { s with
            cellManager := some (n + 1)
            constraints := s.constraints ++
              [(n1 ++ " (stored expression)", sub_expr (.Advice n) e)]
            storedExpressions := fun rid =>
              if rid = s.regionId then
                s.storedExpressions rid ++ [⟨n1 ++ " (stored expression)", n, ct, e⟩]
              else s.storedExpressions rid } e ct =
          some ⟨n1 ++ " (stored expression)", n, ct, e⟩ := by
        unfold CB.find_stored_expression at hf ⊢
        show ((if s.regionId = s.regionId then
            s.storedExpressions s.regionId ++ [⟨n1 ++ " (stored expression)", n, ct, e⟩]
          else s.storedExpressions s.regionId).find? _) = _
        rw [if_pos rfl, List.find?_append, hf]
        simp
      exact store_expression_hit n2 none hfind2

/-- C5: calling `store_expression` twice with the same expression identity
and the same cell type, inside the same region (starting from a state where
the expression is not yet cached), returns the same cell both times; the
pair of calls adds exactly one equality constraint and one stored-expression
record; and the second call returns the first call's state unchanged. -/
theorem C5_store_idempotent [DecidableEq C] (s : CB C) (n1 n2 : String) (e : Expression)
    (ct : C) (hcm : s.cellManager.isSome) (hf : s.find_stored_expression e ct = none) :
    ∃ c s1, s.store_expression n1 e ct none = some (.Advice c, s1) ∧
      s1.store_expression n2 e ct none = some (.Advice c, s1) ∧
      s1.constraints.length = s.constraints.length + 1 ∧
      (s1.storedExpressions s1.regionId).length =
        (s.storedExpressions s.regionId).length + 1 := by
  obtain ⟨n, hn⟩ := Option.isSome_iff_exists.mp hcm
  have h1 := store_expression_miss n1 hf hn
  refine ⟨n, _, h1, store_expression_cached n2 h1, ?_, ?_⟩
  · simp
  · simp

/-- Witness for C5: storing the cell expression `Advice 5` twice in a fresh
region state returns the same cell twice and records one entry. -/
theorem C5_witness :
    (cbBudgetTwo.cellManager.isSome ∧
      cbBudgetTwo.find_stored_expression (.Advice 5) 0 = none) ∧
    (∃ c s1, cbBudgetTwo.store_expression "a" (.Advice 5) 0 none = some (.Advice c, s1) ∧
      s1.store_expression "b" (.Advice 5) 0 none = some (.Advice c, s1) ∧
      s1.constraints.length = cbBudgetTwo.constraints.length + 1 ∧
      (s1.storedExpressions s1.regionId).length =
        (cbBudgetTwo.storedExpressions cbBudgetTwo.regionId).length + 1) :=
  ⟨⟨by decide, rfl⟩,
    C5_store_idempotent cbBudgetTwo "a" "b" (.Advice 5) 0 (by decide) rfl⟩

/-! ## Random linear combination -/

/-- C8: the RLC of `[1,2,3]` with challenge `r` evaluates to
`1 + 2r + 3r^2`; the reversed-order helper applied to the reversed tuple
`[3,2,1]` is the same expression; and in general `rlc_rev` of the reverse
of a tuple is the RLC of the tuple itself. -/
theorem C8_rlc :
    (∀ (v : List Expression) (r : Expression), rlc_rev v.reverse r = rlc_expr v r) ∧
    (∀ (F : Type) [Field F] (σ : Assign F),
      (rlc_expr [.Constant 1, .Constant 2, .Constant 3] (.Challenge 0)).eval σ =
        1 + 2 * σ.chal 0 + 3 * σ.chal 0 ^ 2) ∧
    rlc_rev [.Constant 3, .Constant 2, .Constant 1] (.Challenge 0) =
      rlc_expr [.Constant 1, .Constant 2, .Constant 3] (.Challenge 0) := by
  refine ⟨?_, ?_, rfl⟩
  · intro v r
    simp [rlc_rev, List.reverse_reverse]
  · intro F instF σ
    show (Expression.Sum (.Product (.Sum (.Product (.Constant 3) (.Challenge 0))
        (.Constant 2)) (.Challenge 0)) (.Constant 1)).eval σ = _
    simp [Expression.eval]
    ring

/-! ## Table merging -/

/-- C7: for every nonempty list of `TableData` entries, `merge_unchecked`
returns the selector `Σ condition_i` and, for each column index `j` up to
the widest contributing tuple, the merged column
`Σ_i condition_i * values_i[j]` with missing entries treated as zero; for
the three concrete sources with indicator conditions evaluating to 1, 0, 0
and value tuples [5,6], [7,8], [9,10], the selector evaluates to 1 and the
merged tuple evaluates to [5,6]. -/
theorem C7_merge_unchecked (data : List TableData) (hne : data ≠ []) :
    ((merge_unchecked data).1 = sum_expr (data.map TableData.condition) ∧
      (merge_unchecked data).2.length = (data.map (fun t => t.values.length)).foldl max 0 ∧
      ∀ j, j < (data.map (fun t => t.values.length)).foldl max 0 →
        (merge_unchecked data).2[j]? = some (sum_expr (data.map (fun t =>
          .Product t.condition (t.values.getD j (.Constant 0)))))) ∧
    (∀ (F : Type) [Field F] (σ : Assign F),
      σ.adv 10 = 1 → σ.adv 11 = 0 → σ.adv 12 = 0 →
      ((merge_unchecked [mergeData1, mergeData2, mergeData3]).1.eval σ = 1 ∧
        ((merge_unchecked [mergeData1, mergeData2, mergeData3]).2.getD 0
          (.Constant 0)).eval σ = 5 ∧
        ((merge_unchecked [mergeData1, mergeData2, mergeData3]).2.getD 1
          (.Constant 0)).eval σ = 6)) := by
  constructor
  · have hemp : ¬data.isEmpty := by
      cases data with
      | nil => exact absurd rfl hne
      | cons a l => simp
    refine ⟨?_, ?_, ?_⟩
    · unfold merge_unchecked
      rw [if_neg hemp]
    · unfold merge_unchecked
      rw [if_neg hemp]
      simp
    · intro j hj
      unfold merge_unchecked
      rw [if_neg hemp]
      simp [List.getElem?_map, List.getElem?_range, hj]
  · intro F instF σ h10 h11 h12
    have hcomp : merge_unchecked [mergeData1, mergeData2, mergeData3] =
        (.Sum (.Sum (.Sum (.Constant 0) (.Product (.Constant 1) (.Advice 10)))
            (.Product (.Constant 1) (.Advice 11))) (.Product (.Constant 1) (.Advice 12)),
         [.Sum (.Sum (.Sum (.Constant 0)
              (.Product (.Product (.Constant 1) (.Advice 10)) (.Constant 5)))
              (.Product (.Product (.Constant 1) (.Advice 11)) (.Constant 7)))
              (.Product (.Product (.Constant 1) (.Advice 12)) (.Constant 9)),
          .Sum (.Sum (.Sum (.Constant 0)
              (.Product (.Product (.Constant 1) (.Advice 10)) (.Constant 6)))
              (.Product (.Product (.Constant 1) (.Advice 11)) (.Constant 8)))
              (.Product (.Product (.Constant 1) (.Advice 12)) (.Constant 10))]) := by
      decide
    rw [hcomp]
    refine ⟨?_, ?_, ?_⟩ <;>
      simp [Expression.eval, List.getD, h10, h11, h12]

/-- Witness for C7: the hypotheses hold for the concrete three sources and
the rational assignment activating only the first indicator. -/
theorem C7_witness :
    ([mergeData1, mergeData2, mergeData3] ≠ ([] : List TableData)) ∧
    (assignQ.adv 10 = 1 ∧ assignQ.adv 11 = 0 ∧ assignQ.adv 12 = 0) ∧
    ((merge_unchecked [mergeData1, mergeData2, mergeData3]).1.eval assignQ = 1 ∧
      ((merge_unchecked [mergeData1, mergeData2, mergeData3]).2.getD 0
        (.Constant 0)).eval assignQ = 5 ∧
      ((merge_unchecked [mergeData1, mergeData2, mergeData3]).2.getD 1
        (.Constant 0)).eval assignQ = 6) := by
  have h10 : assignQ.adv 10 = 1 := by norm_num [assignQ]
  have h11 : assignQ.adv 11 = 0 := by norm_num [assignQ]
  have h12 : assignQ.adv 12 = 0 := by norm_num [assignQ]
  exact ⟨by simp [mergeData1, mergeData2, mergeData3], ⟨h10, h11, h12⟩,
    (C7_merge_unchecked [mergeData1, mergeData2, mergeData3] (by simp)).2 ℚ assignQ
      h10 h11 h12⟩

/-! ## Lookup emission -/

theorem build_lookups_list_none_iff :
    ∀ l : List LookupData, build_lookups_list l = none ↔
      ∃ lk ∈ l, lk.table.length < lk.values.length := by
  intro l
  induction l with
  | nil => simp [build_lookups_list]
  | cons lk rest ih =>
    simp only [build_lookups_list]
    by_cases hw : lk.values.length ≤ lk.table.length
    · rw [if_pos hw]
      constructor
      · intro h
        cases hr : build_lookups_list rest with
        | some L => rw [hr] at h; exact absurd h (by simp)
        | none =>
          obtain ⟨lk', hmem, hlt⟩ := ih.mp hr
          exact ⟨lk', List.mem_cons_of_mem _ hmem, hlt⟩
      · rintro ⟨lk', hmem, hlt⟩
        rcases List.mem_cons.mp hmem with rfl | hmem'
        · exact absurd hlt (not_lt.mpr hw)
        · rw [ih.mpr ⟨lk', hmem', hlt⟩]
    · rw [if_neg hw]
      constructor
      · intro _
        exact ⟨lk, List.mem_cons_self _ _, by omega⟩
      · intro _
        rfl

theorem build_lookups_list_some :
    ∀ (l : List LookupData) (L : List (String × List (Expression × Expression))),
      build_lookups_list l = some L →
      L = l.map (fun lk =>
        (lk.description,
          ((lk.values.map (fun v => Expression.Product v lk.condition)) ++
            List.replicate (lk.table.length - lk.values.length) (.Constant 0)).zip
            lk.table)) := by
  intro l
  induction l with
  | nil =>
    intro L h
    simp only [build_lookups_list, Option.some.injEq] at h
    simp [← h]
  | cons lk rest ih =>
    intro L h
    simp only [build_lookups_list] at h
    split at h
    next hw =>
      split at h
      next L' hr =>
        obtain rfl := Option.some.inj h
        simp [List.map_cons, ih L' hr, List.length_map]
      next hr => exact Option.noConfusion h
    next hw => exact Option.noConfusion h

/-- C6: `build_lookups` fails fatally exactly when some pending entry's
requested tuple is wider than its target table tuple; otherwise it emits
one registration per pending `LookupData`, whose requested tuple is each
requested value multiplied by the entry's conjoined (regional x local)
condition, zero-padded on the right up to the table tuple's width and
zipped with the table columns. -/
theorem C6_build_lookups (s : CB C) :
    (s.build_lookups = none ↔
      ∃ lk ∈ s.lookups, lk.table.length < lk.values.length) ∧
    (∀ L, s.build_lookups = some L →
      L = s.lookups.map (fun lk =>
        (lk.description,
          ((lk.values.map (fun v => Expression.Product v lk.condition)) ++
            List.replicate (lk.table.length - lk.values.length) (.Constant 0)).zip
            lk.table))) :=
  ⟨build_lookups_list_none_iff s.lookups,
    fun L h => build_lookups_list_some s.lookups L h⟩

/-- Witness for C6: the 1-tuple `[cell 0]` looked up against the 2-column
table `[fixed 0, fixed 1]` is scaled by its condition and zero-padded to
`[value*condition, 0]`, zipped with the table columns; the claim's padding
example. -/
theorem C6_witness :
    cbLookup.build_lookups = some [("lk",
      [(.Product (.Advice 0) (.Product (.Constant 1) (.Advice 20)), .Fixed 0),
       (.Constant 0, .Fixed 1)])] ∧
    [("lk",
      [(Expression.Product (.Advice 0) (.Product (.Constant 1) (.Advice 20)),
        Expression.Fixed 0),
       (.Constant 0, .Fixed 1)])] = cbLookup.lookups.map (fun lk =>
        (lk.description,
          ((lk.values.map (fun v => Expression.Product v lk.condition)) ++
            List.replicate (lk.table.length - lk.values.length) (.Constant 0)).zip
            lk.table)) :=
  ⟨by decide, (C6_build_lookups cbLookup).2 _ (by decide)⟩

/-! ## Trace-level frame properties of builder operations -/

theorem opframe_refl (s : CB C) : OpFrame s s :=
  ⟨rfl, rfl, rfl, ⟨[], (List.append_nil _).symm⟩⟩

theorem opframe_trans {s1 s2 s3 : CB C} (h1 : OpFrame s1 s2) (h2 : OpFrame s2 s3) :
    OpFrame s1 s3 := by
  obtain ⟨t1, ht1⟩ := h1.constraints
  obtain ⟨t2, ht2⟩ := h2.constraints
  exact ⟨h2.regionId.trans h1.regionId, h2.stateContext.trans h1.stateContext,
    h2.regionConstraintsStart.trans h1.regionConstraintsStart,
    ⟨t1 ++ t2, by rw [ht2, ht1, List.append_assoc]⟩⟩

theorem Extends.toOpFrame {s s' : CB C} (h : Extends s s') : OpFrame s s' :=
  ⟨h.regionId, h.stateContext, h.regionConstraintsStart, h.constraints⟩

theorem add_constraint_ok [DecidableEq C] {sfe : Expression → C} {fuel : Nat}
    {name : String} {e : Expression} {s s' : CB C}
    (h : s.add_constraint sfe fuel name e = .ok s') (hz : s.maxGlobalDegree ≠ 0) :
    ∃ c' s2, split_expression sfe fuel name
        (match s.get_condition with
         | some condition => Expression.Product condition e
         | none => e) s = .ok (c', s2) ∧
      s2.validate_degree c'.degree = true ∧
      s' = { s2 with constraints := s2.constraints ++ [(name, c')] } := by
  unfold CB.add_constraint at h
  rw [if_neg hz] at h
  split at h
  next c' s2 heq2 =>
    split at h
    next hv => exact ⟨c', s2, heq2, hv, (PRes.ok.inj h).symm⟩
    next hv => exact PRes.noConfusion h
  next heq2 => exact PRes.noConfusion h
  next heq2 => exact PRes.noConfusion h

theorem exec_op_frame [DecidableEq C] (sfe : Expression → C) (op : Op C) (s s' : CB C)
    (hop : op.touchesRegion = false) (h : exec_op sfe op s = some s') : OpFrame s s' := by
  cases op with
  | pushCondition c =>
    obtain rfl := Option.some.inj h
    exact ⟨rfl, rfl, rfl, ⟨[], (List.append_nil _).symm⟩⟩
  | popCondition =>
    obtain rfl := Option.some.inj h
    exact ⟨rfl, rfl, rfl, ⟨[], (List.append_nil _).symm⟩⟩
  | addConstraint fuel name e =>
    simp only [exec_op] at h
    split at h
    next s1 heq =>
      obtain rfl := Option.some.inj h
      by_cases hz : s.maxGlobalDegree = 0
      · unfold CB.add_constraint at heq
        rw [if_pos hz] at heq
        obtain rfl := PRes.ok.inj heq
        exact opframe_refl s
      · obtain ⟨c', s2, heq2, hv, rfl⟩ := add_constraint_ok heq hz
        have hext := (split_go_sound sfe name fuel (.expr _) s c' s2 heq2).1
        refine ⟨hext.regionId, hext.stateContext, hext.regionConstraintsStart, ?_⟩
        obtain ⟨t, ht⟩ := hext.constraints
        exact ⟨t ++ [(name, c')], by simp [ht]⟩
    next heq => exact Option.noConfusion h
    next heq => exact Option.noConfusion h
  | storeExpression name e ct =>
    cases hst : s.store_expression name e ct none with
    | none => simp [exec_op, hst] at h
    | some p =>
      obtain ⟨r0, s0⟩ := p
      simp only [exec_op, hst, Option.map] at h
      obtain rfl := Option.some.inj h
      exact (store_expression_shape hst).2.toOpFrame
  | addLookup d v t =>
    obtain rfl := Option.some.inj h
    exact ⟨rfl, rfl, rfl, ⟨[], (List.append_nil _).symm⟩⟩
  | queryOne ct =>
    cases hq : s.query_one ct with
    | none => simp [exec_op, hq] at h
    | some p =>
      obtain ⟨c0, s0⟩ := p
      simp only [exec_op, hq, Option.map] at h
      obtain rfl := Option.some.inj h
      unfold CB.query_one at hq
      cases hcm : s.cellManager with
      | none => rw [hcm] at hq; exact Option.noConfusion hq
      | some n =>
        rw [hcm] at hq
        obtain ⟨rfl, rfl⟩ := Prod.mk.injEq .. ▸ Option.some.injEq _ _ ▸ hq
        exact ⟨rfl, rfl, rfl, ⟨[], (List.append_nil _).symm⟩⟩
  | pushRegion id h' => simp [Op.touchesRegion] at hop
  | popRegion => simp [Op.touchesRegion] at hop

theorem exec_ops_frame [DecidableEq C] (sfe : Expression → C) :
    ∀ (ops : List (Op C)) (s s' : CB C),
      (∀ op ∈ ops, op.touchesRegion = false) →
      exec_ops sfe ops s = some s' → OpFrame s s' := by
  intro ops
  induction ops with
  | nil =>
    intro s s' _ h
    obtain rfl := Option.some.inj h
    exact opframe_refl s
  | cons op rest ih =>
    intro s s' hops h
    simp only [exec_ops] at h
    split at h
    next s1 heq =>
      exact opframe_trans
        (exec_op_frame sfe op s s1 (hops op (List.mem_cons_self _ _)) heq)
        (ih s1 s' (fun o ho => hops o (List.mem_cons_of_mem _ ho)) h)
    next heq => exact Option.noConfusion h

theorem gate_constraints_getElem? (condition : Expression) (start : Nat) :
    ∀ (l : List (String × Expression)) (j i : Nat),
      (gate_constraints condition start j l)[i]? =
        (l[i]?).map (fun p =>
          if start ≤ j + i then (p.1, Expression.Product condition p.2) else p) := by
  intro l
  induction l with
  | nil =>
    intro j i
    simp [gate_constraints]
  | cons p rest ih =>
    intro j i
    cases i with
    | zero => simp [gate_constraints]
    | succ i =>
      have harith : j + 1 + i = j + (i + 1) := by omega
      simp only [gate_constraints, List.getElem?_cons_succ, ih (j + 1) i, harith]

/-- C3: for every constraint added strictly between `push_region(id, h)`
and the matching `pop_region` (an arbitrary sequence of region-free builder
operations in between), after `pop_region` that constraint equals the
expression as appended multiplied (on the left) by the conjunction of the
conditions that were active immediately before `push_region`; constraints
recorded before the region's start marker are left unchanged by
`pop_region`. -/
theorem C3_region_gating [DecidableEq C] (sfe : Expression → C) (ops : List (Op C))
    (regionId height : Nat) (s s1 s2 s3 : CB C)
    (hops : ∀ op ∈ ops, op.touchesRegion = false)
    (hpush : s.push_region regionId height = some s1)
    (hexec : exec_ops sfe ops s1 = some s2)
    (hpop : s2.pop_region = some s3) :
    s3.constraints.take s.constraints.length = s.constraints ∧
    (∀ i, i < s.constraints.length → s3.constraints[i]? = s2.constraints[i]?) ∧
    (∀ i, s.constraints.length ≤ i →
      s3.constraints[i]? = (s2.constraints[i]?).map
        (fun p => (p.1, Expression.Product (get_condition_expr_of s.conditions) p.2))) := by
  -- decompose the push
  unfold CB.push_region at hpush
  split at hpush
  next hid => exact Option.noConfusion hpush
  next hid =>
    split at hpush
    next hdeg =>
      split at hpush
      next hcm => exact Option.noConfusion hpush
      next n hcm =>
        obtain rfl := Option.some.inj hpush
        have hframe := exec_ops_frame sfe ops _ s2 hops hexec
        have hsc : s2.stateContext = s.conditions := hframe.stateContext
        have hst : s2.regionConstraintsStart = s.constraints.length :=
          hframe.regionConstraintsStart
        obtain ⟨t, ht⟩ := hframe.constraints
        -- decompose the pop
        unfold CB.pop_region at hpop
        split at hpop
        next hdeg2 =>
          obtain rfl := Option.some.inj hpop
          have hgate := gate_constraints_getElem? (get_condition_expr_of s2.stateContext)
            s2.regionConstraintsStart s2.constraints 0
          have hmid : ∀ i, i < s.constraints.length →
              (gate_constraints (get_condition_expr_of s2.stateContext)
                s2.regionConstraintsStart 0 s2.constraints)[i]? = s2.constraints[i]? := by
            intro i hi
            rw [hgate i]
            rw [hst]
            cases hgi : s2.constraints[i]? with
            | none => rfl
            | some p =>
              simp only [Option.map]
              rw [if_neg (by omega)]
          refine ⟨?_, hmid, ?_⟩
          · apply List.ext_getElem?
            intro i
            by_cases hi : i < s.constraints.length
            · rw [List.getElem?_take_of_lt hi, hmid i hi, ht,
                List.getElem?_append_left hi]
            · have h1 : s.constraints.length ≤ i := by omega
              rw [List.getElem?_eq_none h1]
              exact List.getElem?_eq_none (by rw [List.length_take]; omega)
          · intro i hi
            rw [hgate i, hst, hsc]
            cases hgi : s2.constraints[i]? with
            | none => rfl
            | some p =>
              simp only [Option.map]
              rw [if_pos (by omega)]
        next hdeg2 => exact Option.noConfusion hpop
    next hdeg => exact Option.noConfusion hpush

/-- Witness for C3: a concrete region 1 with one constraint `cell 0` added
inside it; after `pop_region` the constraint is the base condition (the
constant 1) times the appended expression. -/
theorem C3_witness :
    (∀ op ∈ ([Op.addConstraint 5 "c" (.Advice 0)] : List (Op Nat)),
      op.touchesRegion = false) ∧
    cbC3.push_region 1 1 = some c3s1 ∧
    exec_ops sfe0 [Op.addConstraint 5 "c" (.Advice 0)] c3s1 = some c3s2 ∧
    c3s2.pop_region = some c3s3 ∧
    c3s3.constraints[0]? = (c3s2.constraints[0]?).map
      (fun p => (p.1, Expression.Product (get_condition_expr_of cbC3.conditions) p.2)) :=
  ⟨by decide, rfl, rfl, rfl,
    (C3_region_gating sfe0 [Op.addConstraint 5 "c" (.Advice 0)] 1 1 cbC3 c3s1 c3s2 c3s3
      (by decide) rfl rfl rfl).2.2 0 (by decide)⟩

/-! ## Condition gating of registered constraints -/

/-- C2 (amended): every constraint appended by `add_constraint` equals —
semantically, under the stored-cell equality records of the resulting
state — the conjunction of the enclosing conditions at the time of the
call multiplied by the original zero-expression (with the region's base
condition applied later, at `pop_region`; see C3).  The equality
constraints appended by `store_expression`, however, are appended bare —
`cell − expression` — and are not multiplied by the local conditions
active when they were added (the original claim fails there: see the
counterexample). -/
theorem C2_condition_gating [DecidableEq C] :
    (∀ (sfe : Expression → C) (fuel : Nat) (name : String) (e : Expression) (s s' : CB C),
      s.maxGlobalDegree ≠ 0 → s.add_constraint sfe fuel name e = .ok s' →
      ∃ mid c', s'.constraints = s.constraints ++ mid ++ [(name, c')] ∧
        ∀ (F : Type) [Field F] (σ : Assign F), StoredOk s' σ →
          c'.eval σ = s.get_condition_expr.eval σ * e.eval σ) ∧
    (∀ (name : String) (e : Expression) (ct : C) (s : CB C) (r : Expression) (s' : CB C),
      s.find_stored_expression e ct = none →
      s.store_expression name e ct none = some (r, s') →
      ∃ c, r = .Advice c ∧
        s'.constraints = s.constraints ++
          [(name ++ " (stored expression)", sub_expr (.Advice c) e)]) := by
  constructor
  · intro sfe fuel name e s s' hz h
    obtain ⟨c', s2, heq2, hv, rfl⟩ := add_constraint_ok h hz
    obtain ⟨hext, hsem⟩ := split_go_sound sfe name fuel (.expr _) s c' s2 heq2
    obtain ⟨mid, hmid⟩ := hext.constraints
    refine ⟨mid, c', by simp [hmid], ?_⟩
    intro F instF σ hok
    have hok2 : StoredOk s2 σ := hok
    have hsem2 := hsem F σ hok2
    cases hgc : s.get_condition with
    | some cond =>
      rw [hgc] at hsem2
      simp only [SplitReq.evalTarget, Expression.eval] at hsem2
      rw [hsem2]
      simp [CB.get_condition_expr, hgc]
    | none =>
      rw [hgc] at hsem2
      simp only [SplitReq.evalTarget] at hsem2
      rw [hsem2]
      simp [CB.get_condition_expr, hgc, Expression.eval]
  · intro name e ct s r s' hf h
    cases hcm : s.cellManager with
    | none =>
      unfold CB.store_expression CB.query_one at h
      rw [hf, hcm] at h
      exact absurd h (by simp)
    | some n =>
      rw [store_expression_miss name hf hcm] at h
      obtain ⟨rfl, rfl⟩ := Prod.mk.injEq .. ▸ Option.some.injEq _ _ ▸ h
      exact ⟨n, rfl, rfl⟩

/-- Witness for C2: a global-scope `add_constraint` appends one constraint
equal to the effective condition (the constant 1) times its expression, and
a `store_expression` in region 1 appends the bare equality constraint. -/
theorem C2_witness :
    (cbC3.maxGlobalDegree ≠ 0 ∧
      cbC3.add_constraint sfe0 1 "n" (.Advice 0) = .ok c2res ∧
      (∃ mid c', c2res.constraints = cbC3.constraints ++ mid ++ [("n", c')] ∧
        ∀ (F : Type) [Field F] (σ : Assign F), StoredOk c2res σ →
          c'.eval σ = cbC3.get_condition_expr.eval σ * (Expression.Advice 0).eval σ)) ∧
    (cbBudgetTwo.find_stored_expression (.Advice 5) 0 = none ∧
      cbBudgetTwo.store_expression "a" (.Advice 5) 0 none = some (.Advice 0, c2store) ∧
      (∃ c, (Expression.Advice 0) = .Advice c ∧
        c2store.constraints = cbBudgetTwo.constraints ++
          [("a" ++ " (stored expression)", sub_expr (.Advice c) (.Advice 5))])) :=
  ⟨⟨by decide, rfl,
    C2_condition_gating.1 sfe0 1 "n" (.Advice 0) cbC3 c2res (by decide) rfl⟩,
    ⟨rfl, rfl,
      C2_condition_gating.2 "a" (.Advice 5) 0 cbBudgetTwo (.Advice 0) c2store rfl rfl⟩⟩

/-- C2 counterexample: inside region 1 with the local condition cell 100
active, `store_expression` appends the bare equality `cell0 − cell7`;
after the region pops, the registered constraint is
`1 * (cell0 − cell7)`, which at cell0 = 1, cell7 = 0, cell100 = 0
evaluates to 1, while (conjunction of all enclosing conditions at the time
it was added) × (the original zero-expression) evaluates to 0 — so the
registered constraint does not equal the claimed product. -/
theorem C2_counterexample :
    ((exec_ops sfe0 [Op.pushRegion 1 1, Op.pushCondition (.Advice 100),
        Op.storeExpression "st" (.Advice 7) 0, Op.popCondition, Op.popRegion]
        (CB.new Nat 3 (some 0))).map (fun s => s.constraints.map Prod.snd)) =
      some [.Product (.Constant 1) (sub_expr (.Advice 0) (.Advice 7))] ∧
    (Expression.Product (.Constant 1) (sub_expr (.Advice 0) (.Advice 7))).eval
      assignC2 = 1 ∧
    (Expression.Product (get_condition_expr_of [.Advice 100])
        (sub_expr (.Advice 0) (.Advice 7))).eval assignC2 = 0 ∧
    (Expression.Product (.Constant 1) (sub_expr (.Advice 0) (.Advice 7))).eval
        assignC2 ≠
      (Expression.Product (get_condition_expr_of [.Advice 100])
        (sub_expr (.Advice 0) (.Advice 7))).eval assignC2 := by
  refine ⟨by decide, ?_, ?_, ?_⟩
  · norm_num [Expression.eval, sub_expr, assignC2]
  · norm_num [Expression.eval, sub_expr, assignC2, get_condition_expr_of, and_expr]
  · norm_num [Expression.eval, sub_expr, assignC2, get_condition_expr_of, and_expr]

end CircuitTools
